import Mathlib

/-!
Shallow embedding of the api-perf-budget library (src/index.js).

JavaScript numbers are modeled by the rationals `ℚ`; a JavaScript value
that is `undefined` or `NaN` is modeled by `none : Option ℚ`.  Every
arithmetic operation applied to `undefined` or `NaN` in JavaScript yields
`NaN`, so an interpolation whose array reads go out of bounds produces
`none` here, exactly as the source produces `NaN`.
-/

/-- JavaScript array read `l[i]`: `undefined` (here `none`) when `i` is out of
bounds, otherwise the element. -/
def jsIndex (l : List ℚ) (i : ℤ) : Option ℚ :=
  if 0 ≤ i ∧ i < (l.length : ℤ) then some (l.getD i.toNat 0) else none

/-- JavaScript `Array.prototype.at`: a negative index counts from the end. -/
def jsAt (l : List ℚ) (i : ℤ) : Option ℚ :=
  if i < 0 then jsIndex l ((l.length : ℤ) + i) else jsIndex l i

/-- src/index.js `percentile(sortedValues, p)`.  Returns `some 0` on the empty
list; otherwise computes `index = (p/100)*(n-1)`, `lower = ⌊index⌋`,
`upper = ⌈index⌉`, returning `sortedValues[lower]` when `lower = upper` and
the weighted average otherwise.  An out-of-bounds read gives `none`
(JavaScript: `undefined`, and hence `NaN` after arithmetic). -/
def percentile (sortedValues : List ℚ) (p : ℚ) : Option ℚ :=
  if sortedValues.length = 0 then some 0
  else
    let index := (p / 100) * ((sortedValues.length : ℚ) - 1)
    let lower := ⌊index⌋
    let upper := ⌈index⌉
    if lower = upper then jsIndex sortedValues lower
    else
      let weight := index - (lower : ℚ)
      match jsIndex sortedValues lower, jsIndex sortedValues upper with
      | some lo, some hi => some (lo * (1 - weight) + hi * weight)
      | _, _ => none

/-- The statistics bundle returned by `measureRoute` in src/index.js.
`min`, `max`, `mean` and the percentile fields can be `undefined`/`NaN`
(modeled `none`) on an empty sample, which is why they are `Option ℚ`. -/
structure Stats where
  p50 : Option ℚ
  p75 : Option ℚ
  p90 : Option ℚ
  p95 : Option ℚ
  p99 : Option ℚ
  min : Option ℚ
  max : Option ℚ
  mean : Option ℚ
  median : Option ℚ
  count : ℕ
deriving DecidableEq, Repr

/-- The pure reduction inside `measureRoute` (src/index.js lines 48-62): sort
the latencies ascending, then build the statistics bundle.  `min` is
`sorted[0]`, `max` is `sorted.at(-1)`, `mean` is `sum / length` (`NaN`, i.e.
`none`, when the sample is empty, since JavaScript computes `0/0`). -/
def reduceSample (latencies : List ℚ) : Stats :=
  let sorted := latencies.mergeSort
  let sum := sorted.foldl (· + ·) 0
  { p50 := percentile sorted 50
    p75 := percentile sorted 75
    p90 := percentile sorted 90
    p95 := percentile sorted 95
    p99 := percentile sorted 99
    min := jsIndex sorted 0
    max := jsAt sorted (-1)
    mean := if sorted.length = 0 then none else some (sum / (sorted.length : ℚ))
    median := percentile sorted 50
    count := sorted.length }

/-- Number of batches in `measureRoute`: `Math.ceil(requestCount / concurrency)`. -/
def batches (requestCount concurrency : ℕ) : ℕ :=
  (requestCount + concurrency - 1) / concurrency

/-- The batching loop of `measureRoute`: batch `i` issues
`min(concurrency, requestCount - i*concurrency)` requests, and request `j` of
batch `i` is global request number `i*concurrency + j`.  `lat k` is the latency
observation recorded for request `k` (failures are caught and recorded as
elapsed time, so every request yields exactly one observation). -/
def runBatches (lat : ℕ → ℚ) (requestCount concurrency : ℕ) : List ℚ :=
  (List.range (batches requestCount concurrency)).flatMap
    (fun i => (List.range (Nat.min concurrency (requestCount - i * concurrency))).map
      (fun j => lat (i * concurrency + j)))

/-- src/index.js `measureRoute`, with the HTTP driver abstracted into the
latency oracle `lat` (request number to observed latency). -/
def measureRoute (lat : ℕ → ℚ) (requestCount : ℕ := 100) (concurrency : ℕ := 10) : Stats :=
  reduceSample (runBatches lat requestCount concurrency)

/-- A violation record `{metric, actual, limit}` (src/index.js lines 85-89). -/
structure Violation where
  metric : String
  actual : ℚ
  limit : ℚ
deriving DecidableEq, Repr

/-- The verdict `{passed, violations}` returned by `checkBudget`. -/
structure Verdict where
  passed : Bool
  violations : List Violation
deriving DecidableEq, Repr

/-- JavaScript field access `measurements[metric]` on a statistics bundle.
Unknown names give `undefined` (`none`).  A field whose value is
`undefined`/`NaN` also gives `none`: in `checkBudget` the two are
observationally identical, since `undefined !== undefined` fails the guard and
`NaN > limit` is false, so neither ever produces a violation. -/
def lookupStat (m : Stats) : String → Option ℚ
  | "p50" => m.p50
  | "p75" => m.p75
  | "p90" => m.p90
  | "p95" => m.p95
  | "p99" => m.p99
  | "min" => m.min
  | "max" => m.max
  | "mean" => m.mean
  | "median" => m.median
  | "count" => some (m.count : ℚ)
  | _ => none

/-- The loop body of `checkBudget` for one budget entry `(metric, limit)`:
`actual = measurements[metric]`, and a violation is produced exactly when
`actual !== undefined && actual > limit`. -/
def violationFor (measurements : Stats) (e : String × ℚ) : Option Violation :=
  match lookupStat measurements e.1 with
  | some actual => if e.2 < actual then some ⟨e.1, actual, e.2⟩ else none
  | none => none

/-- src/index.js `checkBudget(measurements, budget)`: iterate the budget
entries in order, record a violation when the looked-up actual value strictly
exceeds the limit, and pass iff no violations were recorded.  The budget is an
insertion-ordered association list, matching `Object.entries` order. -/
def checkBudget (measurements : Stats) (budget : List (String × ℚ)) : Verdict :=
  let violations := budget.filterMap (violationFor measurements)
  ⟨violations.length == 0, violations⟩

/-- The reference percentile definition, written out exactly as the spec
states it (section 4.1): `0` on the empty sequence, otherwise
`idx = (p/100)*(n-1)`, `lo = ⌊idx⌋`, `hi = ⌈idx⌉`, giving `S[lo]` when
`lo = hi` and `S[lo] + (idx - lo) * (S[hi] - S[lo])` otherwise.  This is the
definition claim C1 compares the implementation against. -/
def percentileSpec (S : List ℚ) (p : ℚ) : ℚ :=
  if S.length = 0 then 0
  else
    let idx := (p / 100) * ((S.length : ℚ) - 1)
    let lo := ⌊idx⌋
    let hi := ⌈idx⌉
    if lo = hi then S.getD lo.toNat 0
    else S.getD lo.toNat 0 + (idx - (lo : ℚ)) * (S.getD hi.toNat 0 - S.getD lo.toNat 0)

/-! ### Proof-layer views of the interpolation -/

/-- Total array read used in proofs; agrees with `jsIndex` on in-bounds
indices. -/
def getQ (S : List ℚ) (i : ℤ) : ℚ := S.getD i.toNat 0

/-- The interpolated value at fractional index `x`:
`S[⌊x⌋] + (x - ⌊x⌋) * (S[⌈x⌉] - S[⌊x⌋])`. -/
def interpVal (S : List ℚ) (x : ℚ) : ℚ :=
  getQ S ⌊x⌋ + (x - (⌊x⌋ : ℚ)) * (getQ S ⌈x⌉ - getQ S ⌊x⌋)

theorem jsIndex_eq_some {S : List ℚ} {i : ℤ} (h0 : 0 ≤ i) (h1 : i < (S.length : ℤ)) :
    jsIndex S i = some (getQ S i) := by
  simp [jsIndex, getQ, h0, h1]

theorem jsIndex_eq_none {S : List ℚ} {i : ℤ} (h : ¬(0 ≤ i ∧ i < (S.length : ℤ))) :
    jsIndex S i = none := by
  simp only [jsIndex, if_neg h]

theorem getQ_mono {S : List ℚ} (hs : S.Sorted (· ≤ ·)) {i j : ℤ}
    (h0 : 0 ≤ i) (hij : i ≤ j) (hj : j < (S.length : ℤ)) :
    getQ S i ≤ getQ S j := by
  have hi' : i.toNat < S.length := by omega
  have hj' : j.toNat < S.length := by omega
  have hle : i.toNat ≤ j.toNat := by omega
  have := hs.rel_get_of_le (a := ⟨i.toNat, hi'⟩) (b := ⟨j.toNat, hj'⟩) hle
  simpa [getQ, List.getD_eq_getElem?_getD, List.getElem?_eq_getElem, hi', hj',
    List.get_eq_getElem] using this

theorem interpVal_intCast (S : List ℚ) (k : ℤ) : interpVal S (k : ℚ) = getQ S k := by
  simp [interpVal, Int.floor_intCast, Int.ceil_intCast]

/-- On a nonempty list and a rank in `[0,100]`, the implementation computes
exactly the interpolated value at index `(p/100)*(n-1)` (in particular both
array reads are in bounds). -/
theorem percentile_eq_interpVal {S : List ℚ} {p : ℚ} (hne : S ≠ [])
    (h0 : 0 ≤ p) (h1 : p ≤ 100) :
    percentile S p = some (interpVal S ((p / 100) * ((S.length : ℚ) - 1))) := by
  have hlen : 0 < S.length := List.length_pos.mpr hne
  set x : ℚ := (p / 100) * ((S.length : ℚ) - 1) with hxdef
  have hn1 : (0 : ℚ) ≤ (S.length : ℚ) - 1 := by
    have : (1 : ℚ) ≤ (S.length : ℚ) := by exact_mod_cast hlen
    linarith
  have hp1 : p / 100 ≤ 1 := by linarith
  have hp0 : 0 ≤ p / 100 := by positivity
  have hx0 : 0 ≤ x := mul_nonneg hp0 hn1
  have hxn : x ≤ (S.length : ℚ) - 1 := by
    calc x ≤ 1 * ((S.length : ℚ) - 1) := mul_le_mul_of_nonneg_right hp1 hn1
    _ = (S.length : ℚ) - 1 := one_mul _
  have hfl0 : 0 ≤ ⌊x⌋ := Int.floor_nonneg.mpr hx0
  have hcle : ⌈x⌉ ≤ (S.length : ℤ) - 1 := by
    rw [Int.ceil_le]
    push_cast
    linarith
  have hflc : ⌊x⌋ ≤ ⌈x⌉ := Int.floor_le_ceil x
  have hfllt : ⌊x⌋ < (S.length : ℤ) := by omega
  have hcllt : ⌈x⌉ < (S.length : ℤ) := by omega
  unfold percentile
  rw [if_neg (by omega)]
  simp only []
  by_cases hfe : ⌊x⌋ = ⌈x⌉
  · rw [if_pos hfe, jsIndex_eq_some hfl0 hfllt]
    have hxint : x = (⌊x⌋ : ℚ) := by
      have h1' : (⌊x⌋ : ℚ) ≤ x := Int.floor_le x
      have h2' : x ≤ (⌈x⌉ : ℚ) := Int.le_ceil x
      rw [← hfe] at h2'
      linarith
    rw [interpVal]
    rw [← hxint]
    ring_nf
  · rw [if_neg hfe, jsIndex_eq_some hfl0 hfllt,
      jsIndex_eq_some (le_trans hfl0 hflc) hcllt]
    rw [interpVal]
    rw [Option.some_inj]
    ring

/-- The spec reference definition also equals the interpolated value on a
nonempty list, for every rank (its array reads are total, defaulting to 0,
but coincide with the in-bounds reads wherever both are defined). -/
theorem percentileSpec_eq_interpVal {S : List ℚ} {p : ℚ} (hne : S ≠ []) :
    percentileSpec S p = interpVal S ((p / 100) * ((S.length : ℚ) - 1)) := by
  have hlen : 0 < S.length := List.length_pos.mpr hne
  set x : ℚ := (p / 100) * ((S.length : ℚ) - 1) with hxdef
  unfold percentileSpec
  rw [if_neg (by omega)]
  simp only []
  by_cases hfe : ⌊x⌋ = ⌈x⌉
  · rw [if_pos hfe]
    have hxint : x = (⌊x⌋ : ℚ) := by
      have h1' : (⌊x⌋ : ℚ) ≤ x := Int.floor_le x
      have h2' : x ≤ (⌈x⌉ : ℚ) := Int.le_ceil x
      rw [← hfe] at h2'
      linarith
    rw [interpVal, ← hxint]
    simp [getQ]
  · rw [if_neg hfe, interpVal]
    rfl

/-- On a sorted list, the interpolated value at an in-range index lies between
the two bracketing order statistics. -/
theorem interpVal_bounds {S : List ℚ} (hs : S.Sorted (· ≤ ·)) {x : ℚ}
    (h0 : 0 ≤ x) (h1 : x ≤ (S.length : ℚ) - 1) :
    getQ S ⌊x⌋ ≤ interpVal S x ∧ interpVal S x ≤ getQ S ⌈x⌉ := by
  have hfl : (⌊x⌋ : ℚ) ≤ x := Int.floor_le x
  have hfc : ⌊x⌋ ≤ ⌈x⌉ := Int.floor_le_ceil x
  have hfl0 : 0 ≤ ⌊x⌋ := Int.floor_nonneg.mpr h0
  have hcu : ⌈x⌉ < (S.length : ℤ) := by
    have : ⌈x⌉ ≤ (S.length : ℤ) - 1 := by
      rw [Int.ceil_le]
      push_cast
      linarith
    omega
  have hq : getQ S ⌊x⌋ ≤ getQ S ⌈x⌉ := getQ_mono hs hfl0 hfc hcu
  have hw0 : 0 ≤ x - (⌊x⌋ : ℚ) := by linarith
  have hw1 : x - (⌊x⌋ : ℚ) ≤ 1 := by
    have hc1 : ⌈x⌉ ≤ ⌊x⌋ + 1 := Int.ceil_le_floor_add_one x
    have hc1' : (⌈x⌉ : ℚ) ≤ (⌊x⌋ : ℚ) + 1 := by exact_mod_cast hc1
    have hxc : x ≤ (⌈x⌉ : ℚ) := Int.le_ceil x
    linarith
  constructor
  · have := mul_nonneg hw0 (sub_nonneg.mpr hq)
    unfold interpVal
    linarith
  · have h1w : 0 ≤ 1 - (x - (⌊x⌋ : ℚ)) := by linarith
    have := mul_nonneg h1w (sub_nonneg.mpr hq)
    unfold interpVal
    nlinarith [this]

/-- Monotonicity of the interpolation in the fractional index, over a sorted
list. -/
theorem interpVal_mono {S : List ℚ} (hs : S.Sorted (· ≤ ·)) {x y : ℚ}
    (hx0 : 0 ≤ x) (hxy : x ≤ y) (hyn : y ≤ (S.length : ℚ) - 1) :
    interpVal S x ≤ interpVal S y := by
  have hy0 : 0 ≤ y := le_trans hx0 hxy
  have hxn : x ≤ (S.length : ℚ) - 1 := le_trans hxy hyn
  have hflx0 : 0 ≤ ⌊x⌋ := Int.floor_nonneg.mpr hx0
  have hfly0 : 0 ≤ ⌊y⌋ := Int.floor_nonneg.mpr hy0
  have hflylt : ⌊y⌋ < (S.length : ℤ) := by
    have : (⌊y⌋ : ℚ) ≤ y := Int.floor_le y
    have hlt : (⌊y⌋ : ℚ) < (S.length : ℤ) := by push_cast; linarith
    exact_mod_cast hlt
  by_cases hxint : (⌊x⌋ : ℚ) = x
  · have hx_eq : interpVal S x = getQ S ⌊x⌋ := by
      have hw0 : x - (⌊x⌋ : ℚ) = 0 := by linarith
      unfold interpVal
      rw [hw0]
      ring
    rw [hx_eq]
    calc getQ S ⌊x⌋ ≤ getQ S ⌊y⌋ :=
          getQ_mono hs hflx0 (Int.floor_le_floor hxy) hflylt
    _ ≤ interpVal S y := (interpVal_bounds hs hy0 hyn).1
  · have hcx : ⌈x⌉ = ⌊x⌋ + 1 := by
      have h1' : ⌊x⌋ ≤ ⌈x⌉ := Int.floor_le_ceil x
      have h2' : ⌈x⌉ ≤ ⌊x⌋ + 1 := Int.ceil_le_floor_add_one x
      by_contra hne
      have heq : ⌈x⌉ = ⌊x⌋ := by omega
      apply hxint
      have hle : (⌊x⌋ : ℚ) ≤ x := Int.floor_le x
      have hge : x ≤ (⌈x⌉ : ℚ) := Int.le_ceil x
      have heq' : (⌈x⌉ : ℚ) = (⌊x⌋ : ℚ) := by exact_mod_cast heq
      linarith
    by_cases hff : ⌊x⌋ = ⌊y⌋
    · have hyint : (⌊y⌋ : ℚ) ≠ y := by
        intro hyeq
        apply hxint
        have hle : (⌊x⌋ : ℚ) ≤ x := Int.floor_le x
        have hfeq : (⌊x⌋ : ℚ) = (⌊y⌋ : ℚ) := by exact_mod_cast hff
        linarith [hfeq ▸ hyeq]
      have hcy : ⌈y⌉ = ⌊y⌋ + 1 := by
        have h1' : ⌊y⌋ ≤ ⌈y⌉ := Int.floor_le_ceil y
        have h2' : ⌈y⌉ ≤ ⌊y⌋ + 1 := Int.ceil_le_floor_add_one y
        by_contra hne
        have heq : ⌈y⌉ = ⌊y⌋ := by omega
        apply hyint
        have hle : (⌊y⌋ : ℚ) ≤ y := Int.floor_le y
        have hge : y ≤ (⌈y⌉ : ℚ) := Int.le_ceil y
        have heq' : (⌈y⌉ : ℚ) = (⌊y⌋ : ℚ) := by exact_mod_cast heq
        linarith
      have hceq : ⌈y⌉ = ⌈x⌉ := by omega
      have hcylt : ⌈y⌉ < (S.length : ℤ) := by
        have : ⌈y⌉ ≤ (S.length : ℤ) - 1 := by
          rw [Int.ceil_le]
          push_cast
          linarith
        omega
      have hd : 0 ≤ getQ S ⌈x⌉ - getQ S ⌊x⌋ :=
        sub_nonneg.mpr (getQ_mono hs hflx0 (Int.floor_le_ceil x) (hceq ▸ hcylt))
      have hwle : x - (⌊x⌋ : ℚ) ≤ y - (⌊x⌋ : ℚ) := by linarith
      unfold interpVal
      rw [← hff, hceq]
      nlinarith [mul_le_mul_of_nonneg_right hwle hd]
    · have hflt : ⌊x⌋ < ⌊y⌋ :=
        lt_of_le_of_ne (Int.floor_le_floor hxy) hff
      have hcx0 : 0 ≤ ⌈x⌉ := le_trans hflx0 (Int.floor_le_ceil x)
      calc interpVal S x ≤ getQ S ⌈x⌉ := (interpVal_bounds hs hx0 hxn).2
      _ ≤ getQ S ⌊y⌋ := getQ_mono hs hcx0 (by omega) hflylt
      _ ≤ interpVal S y := (interpVal_bounds hs hy0 hyn).1

theorem ceil_nine_halves : ⌈(9/2 : ℚ)⌉ = 5 := by
  rw [Int.ceil_eq_iff]
  norm_num

theorem ceil_three_halves : ⌈(3/2 : ℚ)⌉ = 2 := by
  rw [Int.ceil_eq_iff]
  norm_num

/-- C1: on every sorted ascending sequence and every rank `p ∈ [0,100]`,
`percentile` returns exactly the reference linear-interpolation-between-
closest-ranks value `percentileSpec`; in particular
`percentile [1,...,10] 50 = 5.5` and `percentile [1,...,5] 50 = 3`. -/
theorem percentile_matches_reference :
    (∀ (S : List ℚ) (p : ℚ), S.Sorted (· ≤ ·) → 0 ≤ p → p ≤ 100 →
      percentile S p = some (percentileSpec S p)) ∧
    percentile [1,2,3,4,5,6,7,8,9,10] 50 = some (11/2) ∧
    percentile [1,2,3,4,5] 50 = some 3 := by
  refine ⟨fun S p _hs h0 h1 => ?_, ?_, ?_⟩
  · by_cases hne : S = []
    · subst hne
      simp [percentile, percentileSpec]
    · rw [percentile_eq_interpVal hne h0 h1, percentileSpec_eq_interpVal hne]
  · norm_num [percentile, jsIndex, ceil_nine_halves,
      show Int.toNat 4 = 4 from rfl, show Int.toNat 5 = 5 from rfl]
  · norm_num [percentile, jsIndex, show Int.toNat 2 = 2 from rfl]

/-- Witness for C1: a concrete sorted sequence and in-range rank. -/
theorem percentile_matches_reference_witness :
    percentile [1,2,3] 30 = some (percentileSpec [1,2,3] 30) :=
  percentile_matches_reference.1 [1,2,3] 30 (by decide) (by decide) (by decide)

/-- C4: for a fixed sorted sequence, `percentile` is monotone in the rank on
`[0,100]` (both values are defined, and the lower rank gives the smaller
value). -/
theorem percentile_rank_mono :
    ∀ (S : List ℚ) (p1 p2 : ℚ), S.Sorted (· ≤ ·) → 0 ≤ p1 → p1 < p2 → p2 ≤ 100 →
    ∃ v1 v2, percentile S p1 = some v1 ∧ percentile S p2 = some v2 ∧ v1 ≤ v2 := by
  intro S p1 p2 hs h0 h12 h2
  by_cases hne : S = []
  · subst hne
    exact ⟨0, 0, by simp [percentile], by simp [percentile], le_refl 0⟩
  · have h1' : p1 ≤ 100 := by linarith
    have h20 : 0 ≤ p2 := by linarith
    have hlen : 0 < S.length := List.length_pos.mpr hne
    have hn1 : (0:ℚ) ≤ (S.length : ℚ) - 1 := by
      have h1le : (1:ℚ) ≤ (S.length : ℚ) := by exact_mod_cast hlen
      linarith
    refine ⟨_, _, percentile_eq_interpVal hne h0 h1',
      percentile_eq_interpVal hne h20 h2, ?_⟩
    apply interpVal_mono hs
    · exact mul_nonneg (by positivity) hn1
    · exact mul_le_mul_of_nonneg_right (by linarith : p1/100 ≤ p2/100) hn1
    · calc (p2/100) * ((S.length:ℚ)-1) ≤ 1 * ((S.length:ℚ)-1) :=
          mul_le_mul_of_nonneg_right (by linarith) hn1
      _ = (S.length:ℚ) - 1 := one_mul _

/-- Witness for C4 at S = [1,2,3], ranks 25 < 75. -/
theorem percentile_rank_mono_witness :
    ∃ v1 v2, percentile [1,2,3] 25 = some v1 ∧ percentile [1,2,3] 75 = some v2 ∧
      v1 ≤ v2 :=
  percentile_rank_mono [1,2,3] 25 75 (by decide) (by decide) (by decide) (by decide)

/-- C8 (amended): a rank outside `[0,100]` is not validated and the same
formula is applied, but on a sequence of length at least 2 the bracketing
index it computes falls outside the array, so the read yields `undefined` and
the result is `NaN`/`undefined` (modeled `none`) — not an extrapolated value.
On sequences of length 0 or 1 the result is unaffected by the rank. -/
theorem percentile_out_of_range :
    ∀ (S : List ℚ) (p : ℚ),
      (2 ≤ S.length → (p < 0 ∨ 100 < p) → percentile S p = none) ∧
      (S.length = 0 → percentile S p = some 0) ∧
      (∀ x : ℚ, S = [x] → percentile S p = some x) := by
  intro S p
  refine ⟨fun h2 hp => ?_, fun h0 => by simp [percentile, h0], fun x hx => ?_⟩
  · have hlen : ¬S.length = 0 := by omega
    have hn1 : (1:ℚ) ≤ (S.length : ℚ) - 1 := by
      have h2' : (2:ℚ) ≤ (S.length : ℚ) := by exact_mod_cast h2
      linarith
    unfold percentile
    rw [if_neg hlen]
    simp only []
    set idx : ℚ := (p / 100) * ((S.length : ℚ) - 1) with hidx
    rcases hp with hneg | hbig
    · have hidxneg : idx < 0 := by
        rw [hidx]
        apply mul_neg_of_neg_of_pos
        · linarith
        · linarith
      have hfl : ⌊idx⌋ < 0 := Int.floor_lt.mpr (by exact_mod_cast hidxneg)
      by_cases hfe : ⌊idx⌋ = ⌈idx⌉
      · rw [if_pos hfe]
        exact jsIndex_eq_none (by omega)
      · rw [if_neg hfe, jsIndex_eq_none (i := ⌊idx⌋) (by omega)]
    · have hidxbig : (S.length : ℚ) - 1 < idx := by
        rw [hidx]
        calc (S.length : ℚ) - 1 = 1 * ((S.length : ℚ) - 1) := (one_mul _).symm
        _ < (p / 100) * ((S.length : ℚ) - 1) :=
            mul_lt_mul_of_pos_right (by linarith) (by linarith)
      have hcl : (S.length : ℤ) - 1 < ⌈idx⌉ := Int.lt_ceil.mpr (by push_cast; linarith)
      by_cases hfe : ⌊idx⌋ = ⌈idx⌉
      · rw [if_pos hfe, hfe]
        exact jsIndex_eq_none (by omega)
      · rw [if_neg hfe, jsIndex_eq_none (i := ⌈idx⌉) (by omega)]
        cases jsIndex S ⌊idx⌋ <;> rfl
  · subst hx
    simp [percentile, jsIndex]

/-- Witness for C8 (amended) at its three hypotheses. -/
theorem percentile_out_of_range_witness :
    percentile [10, 20] 150 = none ∧ percentile [] 5 = some 0 ∧
      percentile [7] 150 = some 7 :=
  ⟨(percentile_out_of_range [10, 20] 150).1 (by decide) (Or.inr (by decide)),
   (percentile_out_of_range [] 5).2.1 (by decide),
   (percentile_out_of_range [7] 150).2.2 7 rfl⟩

/-- Counterexample to C8 as stated: for `S = [10,20]` and `p = 150` the
formula computes `index = 1.5`, `upper = 2`, and the read `S[2]` is out of
bounds (`undefined`), so the result is `NaN` (`none`), not a meaningful
extrapolated value. -/
theorem percentile_extrapolation_counterexample :
    percentile [10, 20] 150 = none ∧ jsIndex [10, 20] 2 = none := by
  constructor
  · norm_num [percentile, jsIndex, ceil_three_halves]
  · norm_num [jsIndex]

/-- C2 evaluation: on the empty sample the code gives `0` for the five
percentile fields, `median` and `count`, but `min = sorted[0]` and
`max = sorted.at(-1)` are `undefined` and `mean = 0/0` is `NaN` (all `none`) —
not `0` as the spec asserts. -/
theorem reduceSample_empty_eval :
    (reduceSample []).p50 = some 0 ∧ (reduceSample []).p75 = some 0 ∧
    (reduceSample []).p90 = some 0 ∧ (reduceSample []).p95 = some 0 ∧
    (reduceSample []).p99 = some 0 ∧ (reduceSample []).median = some 0 ∧
    (reduceSample []).count = 0 ∧
    (reduceSample []).min = none ∧ (reduceSample []).max = none ∧
    (reduceSample []).mean = none := by
  norm_num [reduceSample, percentile, jsIndex, jsAt, List.mergeSort]

theorem reduceSample_p50 (L : List ℚ) :
    (reduceSample L).p50 = percentile L.mergeSort 50 := rfl

theorem reduceSample_min (L : List ℚ) :
    (reduceSample L).min = jsIndex L.mergeSort 0 := rfl

theorem reduceSample_max (L : List ℚ) :
    (reduceSample L).max = jsAt L.mergeSort (-1) := rfl

/-- On a sorted nonempty list, the first element, the five percentiles in
rank order, and the last element are all defined and form a nondecreasing
chain. -/
theorem sorted_stats_chain {S : List ℚ} (hs : S.Sorted (· ≤ ·)) (hne : S ≠ []) :
    ∃ mn a b c d e mx,
      jsIndex S 0 = some mn ∧ percentile S 50 = some a ∧ percentile S 75 = some b ∧
      percentile S 90 = some c ∧ percentile S 95 = some d ∧ percentile S 99 = some e ∧
      jsAt S (-1) = some mx ∧
      mn ≤ a ∧ a ≤ b ∧ b ≤ c ∧ c ≤ d ∧ d ≤ e ∧ e ≤ mx := by
  have hpos : 0 < S.length := List.length_pos.mpr hne
  have h1le : (1:ℚ) ≤ (S.length : ℚ) := by exact_mod_cast hpos
  have hn1 : (0:ℚ) ≤ (S.length : ℚ) - 1 := by linarith
  have key : ∀ p q : ℚ, 0 ≤ p → p ≤ q → q ≤ 100 →
      interpVal S ((p/100) * ((S.length:ℚ)-1)) ≤
        interpVal S ((q/100) * ((S.length:ℚ)-1)) := by
    intro p q hp hpq hq
    apply interpVal_mono hs (mul_nonneg (by positivity) hn1)
      (mul_le_mul_of_nonneg_right (by linarith) hn1)
    calc (q/100) * ((S.length:ℚ)-1) ≤ 1 * ((S.length:ℚ)-1) :=
        mul_le_mul_of_nonneg_right (by linarith) hn1
    _ = (S.length:ℚ) - 1 := one_mul _
  have h0x : interpVal S ((0:ℚ)/100 * ((S.length:ℚ)-1)) = getQ S 0 := by
    have h00 : ((0:ℚ)/100) * ((S.length:ℚ)-1) = ((0:ℤ):ℚ) := by push_cast; ring
    rw [h00, interpVal_intCast]
  have h100x : interpVal S ((100:ℚ)/100 * ((S.length:ℚ)-1)) =
      getQ S ((S.length:ℤ) - 1) := by
    have hcast : ((100:ℚ)/100) * ((S.length:ℚ)-1) = (((S.length:ℤ) - 1 : ℤ):ℚ) := by
      push_cast
      ring
    rw [hcast, interpVal_intCast]
  refine ⟨interpVal S ((0:ℚ)/100 * ((S.length:ℚ)-1)), _, _, _, _, _,
    interpVal S ((100:ℚ)/100 * ((S.length:ℚ)-1)), ?_,
    percentile_eq_interpVal hne (by norm_num) (by norm_num),
    percentile_eq_interpVal hne (by norm_num) (by norm_num),
    percentile_eq_interpVal hne (by norm_num) (by norm_num),
    percentile_eq_interpVal hne (by norm_num) (by norm_num),
    percentile_eq_interpVal hne (by norm_num) (by norm_num),
    ?_,
    key 0 50 (by norm_num) (by norm_num) (by norm_num),
    key 50 75 (by norm_num) (by norm_num) (by norm_num),
    key 75 90 (by norm_num) (by norm_num) (by norm_num),
    key 90 95 (by norm_num) (by norm_num) (by norm_num),
    key 95 99 (by norm_num) (by norm_num) (by norm_num),
    key 99 100 (by norm_num) (by norm_num) (by norm_num)⟩
  · rw [h0x]
    exact jsIndex_eq_some le_rfl (by exact_mod_cast hpos)
  · rw [h100x]
    unfold jsAt
    rw [if_pos (by norm_num)]
    rw [show (S.length:ℤ) + -1 = (S.length:ℤ) - 1 from by ring]
    exact jsIndex_eq_some (by omega) (by omega)

/-- C5: every bundle built from a nonempty sample satisfies
`min ≤ p50 ≤ p75 ≤ p90 ≤ p95 ≤ p99 ≤ max` (all fields defined) and its
`median` field is exactly its `p50` field. -/
theorem reduceSample_invariant :
    ∀ L : List ℚ, L ≠ [] →
    ∃ mn a b c d e mx,
      (reduceSample L).min = some mn ∧
      (reduceSample L).p50 = some a ∧ (reduceSample L).p75 = some b ∧
      (reduceSample L).p90 = some c ∧ (reduceSample L).p95 = some d ∧
      (reduceSample L).p99 = some e ∧ (reduceSample L).max = some mx ∧
      mn ≤ a ∧ a ≤ b ∧ b ≤ c ∧ c ≤ d ∧ d ≤ e ∧ e ≤ mx ∧
      (reduceSample L).median = (reduceSample L).p50 := by
  intro L hne
  have hs : (L.mergeSort).Sorted (· ≤ ·) := List.sorted_mergeSort' L
  have hSne : L.mergeSort ≠ [] := by
    intro h
    apply hne
    have hlen := congrArg List.length h
    rw [List.length_mergeSort] at hlen
    exact List.eq_nil_of_length_eq_zero hlen
  obtain ⟨mn, a, b, c, d, e, mx, h1, h2, h3, h4, h5, h6, h7,
    q1, q2, q3, q4, q5, q6⟩ := sorted_stats_chain hs hSne
  exact ⟨mn, a, b, c, d, e, mx, h1, h2, h3, h4, h5, h6, h7,
    q1, q2, q3, q4, q5, q6, rfl⟩

/-- Witness for C5 at the concrete sample [2,1]. -/
theorem reduceSample_invariant_witness :
    ∃ mn a b c d e mx,
      (reduceSample [2,1]).min = some mn ∧
      (reduceSample [2,1]).p50 = some a ∧ (reduceSample [2,1]).p75 = some b ∧
      (reduceSample [2,1]).p90 = some c ∧ (reduceSample [2,1]).p95 = some d ∧
      (reduceSample [2,1]).p99 = some e ∧ (reduceSample [2,1]).max = some mx ∧
      mn ≤ a ∧ a ≤ b ∧ b ≤ c ∧ c ≤ d ∧ d ≤ e ∧ e ≤ mx ∧
      (reduceSample [2,1]).median = (reduceSample [2,1]).p50 :=
  reduceSample_invariant [2,1] (by decide)

theorem batches_succ_peel {c : ℕ} (hc : 1 ≤ c) {r : ℕ} (hr : 1 ≤ r) :
    batches r c = batches (r - c) c + 1 := by
  have hb1 : batches r c = (r - 1) / c + 1 := by
    unfold batches
    rw [show r + c - 1 = (r - 1) + c from by omega, Nat.add_div_right _ hc]
  have hb2 : batches (r - c) c = (r - 1) / c := by
    unfold batches
    rcases Nat.lt_or_ge r c with h | h
    · rw [show r - c = 0 from by omega]
      rw [Nat.div_eq_of_lt (by omega)]
      symm
      exact Nat.div_eq_of_lt (by omega)
    · rw [show r - c + c - 1 = r - 1 from by omega]
  rw [hb1, hb2]

/-- The batch sizes `min(concurrency, requests - i*concurrency)` over the
`ceil(requests/concurrency)` batches sum to `requests`. -/
theorem batchSizes_sum (c : ℕ) (hc : 1 ≤ c) :
    ∀ r, ((List.range (batches r c)).map (fun i => Nat.min c (r - i * c))).sum = r := by
  intro r
  induction r using Nat.strong_induction_on with
  | _ r ih =>
    rcases Nat.eq_zero_or_pos r with rfl | hr
    · have hb : batches 0 c = 0 := Nat.div_eq_of_lt (by omega)
      simp [hb]
    · rw [batches_succ_peel hc hr, List.range_succ_eq_map, List.map_cons,
        List.sum_cons, List.map_map]
      have hcomp : ((fun i => Nat.min c (r - i * c)) ∘ Nat.succ) =
          fun i => Nat.min c ((r - c) - i * c) := by
        funext i
        show Nat.min c (r - (i + 1) * c) = Nat.min c ((r - c) - i * c)
        rw [show (i + 1) * c = i * c + c from by ring, ← Nat.sub_sub,
          Nat.sub_right_comm]
      rw [hcomp, ih (r - c) (by omega)]
      simp only [Nat.zero_mul, Nat.sub_zero]
      show min c r + (r - c) = r
      omega

theorem runBatches_length (lat : ℕ → ℚ) (r c : ℕ) (hc : 1 ≤ c) :
    (runBatches lat r c).length = r := by
  unfold runBatches
  simp only [List.flatMap, List.length_flatten, List.map_map]
  have hfun : (List.length ∘ fun i =>
      (List.range (Nat.min c (r - i * c))).map (fun j => lat (i * c + j))) =
      fun i => Nat.min c (r - i * c) := by
    funext i
    simp
  rw [hfun]
  exact batchSizes_sum c hc r

/-- C9: a measurement run issues its requests in
`ceil(requests/concurrency)` batches of size
`min(concurrency, requests - i*concurrency)`, which sum to exactly
`requests`; hence the bundle's `count` equals `requests`, whatever the
concurrency and whatever latency each request (including failed ones)
observed. -/
theorem measureRoute_count :
    ∀ (lat : ℕ → ℚ) (r c : ℕ), 1 ≤ r → 1 ≤ c →
      (measureRoute lat r c).count = r := by
  intro lat r c _hr hc
  calc (measureRoute lat r c).count = (runBatches lat r c).length :=
      List.length_mergeSort (runBatches lat r c)
  _ = r := runBatches_length lat r c hc

/-- Witness for C9: 15 requests at concurrency 10 yield `count = 15`. -/
theorem measureRoute_count_witness :
    (measureRoute (fun _ => 1) 15 10).count = 15 :=
  measureRoute_count (fun _ => 1) 15 10 (by decide) (by decide)

theorem checkBudget_violations_def (m : Stats) (b : List (String × ℚ)) :
    (checkBudget m b).violations = b.filterMap (violationFor m) := rfl

theorem violationFor_some {m : Stats} {e : String × ℚ} {v : Violation}
    (h : violationFor m e = some v) :
    v.metric = e.1 ∧ v.limit = e.2 ∧ lookupStat m e.1 = some v.actual ∧
      v.limit < v.actual := by
  unfold violationFor at h
  split at h
  · rename_i actual hl
    split at h
    · rename_i hlt
      have hv : v = ⟨e.1, actual, e.2⟩ := (Option.some_inj.mp h).symm
      subst hv
      exact ⟨rfl, rfl, hl, hlt⟩
    · simp at h
  · simp at h

/-- Membership in the violations list, characterized entrywise. -/
theorem mem_checkBudget_violations (m : Stats) (b : List (String × ℚ))
    (k : String) (a l : ℚ) :
    (⟨k, a, l⟩ : Violation) ∈ (checkBudget m b).violations ↔
      ((k, l) ∈ b ∧ lookupStat m k = some a ∧ l < a) := by
  rw [checkBudget_violations_def, List.mem_filterMap]
  constructor
  · rintro ⟨e, he, hfe⟩
    obtain ⟨h1, h2, h3, h4⟩ := violationFor_some hfe
    dsimp only at h1 h2 h3 h4
    subst h1
    subst h2
    rw [Prod.mk.eta]
    exact ⟨he, h3, h4⟩
  · rintro ⟨hmem, hl, hlt⟩
    refine ⟨(k, l), hmem, ?_⟩
    unfold violationFor
    rw [show ((k, l) : String × ℚ).1 = k from rfl, hl]
    show (if l < a then some (⟨k, a, l⟩ : Violation) else none) = some ⟨k, a, l⟩
    rw [if_pos hlt]

/-- C3: `checkBudget` records a violation `{metric, actual, limit}` for a
budget entry exactly when the bundle value for that metric strictly exceeds
the limit (equality passes); `passed` holds iff the violations list is empty;
and the violations appear in the budget's entry (insertion) order. -/
theorem checkBudget_characterization :
    ∀ (m : Stats) (b : List (String × ℚ)),
      ((checkBudget m b).passed = true ↔ (checkBudget m b).violations = []) ∧
      (∀ (k : String) (a l : ℚ),
        (⟨k, a, l⟩ : Violation) ∈ (checkBudget m b).violations ↔
          ((k, l) ∈ b ∧ lookupStat m k = some a ∧ l < a)) ∧
      List.Sublist
        ((checkBudget m b).violations.map (fun v => (v.metric, v.limit))) b := by
  intro m b
  refine ⟨?_, fun k a l => mem_checkBudget_violations m b k a l, ?_⟩
  · show ((b.filterMap (violationFor m)).length == 0) = true ↔
      (checkBudget m b).violations = []
    rw [checkBudget_violations_def]
    simp [List.length_eq_zero]
  · rw [checkBudget_violations_def]
    induction b with
    | nil => simp
    | cons e tl ih =>
      rw [List.filterMap_cons]
      rcases hfe : violationFor m e with _ | v
      · exact ih.cons e
      · rw [List.map_cons]
        obtain ⟨h1, h2, _, _⟩ := violationFor_some hfe
        rw [h1, h2, Prod.mk.eta]
        exact ih.cons₂ e

/-- A concrete statistics bundle used by the witnesses for the comparator
claims. -/
def demoStats : Stats :=
  ⟨some 10, some 20, some 30, some 40, some 50, some 1, some 60, some 25,
    some 10, 7⟩

/-- C6: an empty budget always passes with no violations, and a budget key
that is not a field of the bundle never produces a violation. -/
theorem checkBudget_empty_and_unknown :
    ∀ m : Stats,
      checkBudget m [] = ⟨true, []⟩ ∧
      (∀ (b : List (String × ℚ)) (name : String), lookupStat m name = none →
        ∀ viol ∈ (checkBudget m b).violations, viol.metric ≠ name) := by
  intro m
  refine ⟨rfl, ?_⟩
  intro b name hnone viol hviol heq
  rw [checkBudget_violations_def, List.mem_filterMap] at hviol
  obtain ⟨e, _, hfe⟩ := hviol
  obtain ⟨h1, _, h3, _⟩ := violationFor_some hfe
  rw [← h1, heq, hnone] at h3
  exact absurd h3 (by simp)

/-- Witness for C6: the empty budget on a concrete bundle, and a typo'd
metric name `"p62"`. -/
theorem checkBudget_empty_and_unknown_witness :
    checkBudget demoStats [] = ⟨true, []⟩ ∧
      ∀ viol ∈ (checkBudget demoStats [("p62", 5)]).violations,
        viol.metric ≠ "p62" :=
  ⟨(checkBudget_empty_and_unknown demoStats).1,
   (checkBudget_empty_and_unknown demoStats).2 [("p62", 5)] "p62" rfl⟩

/-- C10: every bundle field is subject to budget comparison — not only the
five percentile metrics but also `mean`, `min`, `max`, `median`, and `count`
are looked up by name, and produce a violation exactly when their value
strictly exceeds the limit; only keys absent from the bundle are ignored. -/
theorem checkBudget_nonpercentile_fields :
    ∀ (m : Stats) (b : List (String × ℚ)) (k : String) (a l : ℚ),
      (lookupStat m "mean" = m.mean ∧ lookupStat m "min" = m.min ∧
       lookupStat m "max" = m.max ∧ lookupStat m "median" = m.median ∧
       lookupStat m "count" = some (m.count : ℚ)) ∧
      (lookupStat m k = some a →
        ((⟨k, a, l⟩ : Violation) ∈ (checkBudget m b).violations ↔
          ((k, l) ∈ b ∧ l < a))) := by
  intro m b k a l
  refine ⟨⟨rfl, rfl, rfl, rfl, rfl⟩, fun hk => ?_⟩
  rw [mem_checkBudget_violations]
  simp [hk]

/-- Witness for C10: a budget on the `count` field of a concrete bundle
(count 7 exceeds the limit 5) produces a violation. -/
theorem checkBudget_nonpercentile_fields_witness :
    (⟨"count", 7, 5⟩ : Violation) ∈
        (checkBudget demoStats [("count", 5)]).violations ↔
      (("count", (5:ℚ)) ∈ [("count", (5:ℚ))] ∧ (5:ℚ) < 7) :=
  (checkBudget_nonpercentile_fields demoStats [("count", 5)] "count" 7 5).2 rfl

/-! ### Heap model for defineBudget (aliasing claims) -/

/-- A small JavaScript heap for the `defineBudget` aliasing claim: top-level
budget-map objects hold (route, address) entries pointing into a store of
per-route Budget records (field/limit association lists).  Addresses are
positions in the respective stores. -/
structure JsHeap where
  maps : List (List (String × ℕ))
  recs : List (List (String × ℚ))
deriving DecidableEq, Repr

/-- The entry list of the map object at address `a`. -/
def mapEntries (h : JsHeap) (a : ℕ) : List (String × ℕ) := h.maps.getD a []

/-- The field list of the Budget record at address `a`. -/
def recFields (h : JsHeap) (a : ℕ) : List (String × ℚ) := h.recs.getD a []

/-- src/index.js `defineBudget(budgets)`, i.e. `{...budgets}`: allocate a
fresh top-level object carrying the same entries — the same (route, address)
pairs, so nested Budget records are shared, not cloned.  Returns the new heap
and the fresh object's address. -/
def defineBudget (h : JsHeap) (a : ℕ) : JsHeap × ℕ :=
  (⟨h.maps ++ [mapEntries h a], h.recs⟩, h.maps.length)

/-- Mutation of a top-level map object: replace the entries of the object at
address `a` (covers adding, removing or reassigning route keys). -/
def setMapObj (h : JsHeap) (a : ℕ) (es : List (String × ℕ)) : JsHeap :=
  ⟨h.maps.set a es, h.recs⟩

/-- JavaScript assignment `rec[f] = v` on a field list: update the existing
field in place, else append. -/
def setAssoc (es : List (String × ℚ)) (f : String) (v : ℚ) : List (String × ℚ) :=
  if es.any (fun e => e.1 = f) then es.map (fun e => if e.1 = f then (f, v) else e)
  else es ++ [(f, v)]

/-- Mutation of a nested Budget record: `recs[a][f] = v`. -/
def setRecField (h : JsHeap) (a : ℕ) (f : String) (v : ℚ) : JsHeap :=
  ⟨h.maps, h.recs.set a (setAssoc (recFields h a) f v)⟩

/-- Read `map[route][field]` through the map object at address `a`. -/
def readNested (h : JsHeap) (a : ℕ) (route field : String) : Option ℚ :=
  match (mapEntries h a).lookup route with
  | some r => (recFields h r).lookup field
  | none => none

/-- A one-route heap: map object 0 is `{users: rec 0}` with record 0 equal to
`{p95: 200}`. -/
def demoHeap : JsHeap := ⟨[[("users", 0)]], [[("p95", 200)]]⟩

/-- Counterexample to C7: `{...budgets}` is a shallow copy, so the nested
Budget record address (0) is visible through the copy; after writing
`p95 = 999` on that shared record (a mutation performed through the returned
map), reading through the caller's original map observes 999, not 200. -/
theorem defineBudget_nested_aliasing_counterexample :
    (mapEntries (defineBudget demoHeap 0).1 (defineBudget demoHeap 0).2).lookup
        "users" = some 0 ∧
    readNested (defineBudget demoHeap 0).1 0 "users" "p95" = some 200 ∧
    readNested (setRecField (defineBudget demoHeap 0).1 0 "p95" 999) 0
        "users" "p95" = some 999 := by
  refine ⟨by decide, by decide, by decide⟩

/-- C7 (amended): `defineBudget` returns a fresh top-level map object whose
entry list equals the input's, and top-level mutations of either object are
not observable through the other; but the copy is shallow — the nested
per-route records are shared, as the counterexample shows. -/
theorem defineBudget_shallow_copy :
    ∀ (h : JsHeap) (a : ℕ), a < h.maps.length →
      (defineBudget h a).2 ≠ a ∧
      mapEntries (defineBudget h a).1 (defineBudget h a).2 = mapEntries h a ∧
      (∀ es, mapEntries (setMapObj (defineBudget h a).1 (defineBudget h a).2 es) a
        = mapEntries h a) ∧
      (∀ es, mapEntries (setMapObj (defineBudget h a).1 a es) (defineBudget h a).2
        = mapEntries h a) := by
  intro h a ha
  refine ⟨show h.maps.length ≠ a from by omega, ?_, ?_, ?_⟩
  · show (h.maps ++ [mapEntries h a]).getD h.maps.length [] = mapEntries h a
    rw [List.getD_eq_getElem?_getD, List.getElem?_append_right (le_refl _)]
    simp
  · intro es
    show ((h.maps ++ [mapEntries h a]).set h.maps.length es).getD a [] =
      mapEntries h a
    rw [List.getD_eq_getElem?_getD, List.getElem?_set_ne (by omega),
      List.getElem?_append_left ha]
    exact (List.getD_eq_getElem?_getD _ _ _).symm
  · intro es
    show ((h.maps ++ [mapEntries h a]).set a es).getD h.maps.length [] =
      mapEntries h a
    rw [List.getD_eq_getElem?_getD, List.getElem?_set_ne (by omega),
      List.getElem?_append_right (le_refl _)]
    simp

/-- Witness for C7 (amended) on the concrete one-route heap. -/
theorem defineBudget_shallow_copy_witness :
    (defineBudget demoHeap 0).2 ≠ 0 ∧
      mapEntries (defineBudget demoHeap 0).1 (defineBudget demoHeap 0).2 =
        mapEntries demoHeap 0 ∧
      (∀ es, mapEntries
          (setMapObj (defineBudget demoHeap 0).1 (defineBudget demoHeap 0).2 es) 0
        = mapEntries demoHeap 0) ∧
      (∀ es, mapEntries (setMapObj (defineBudget demoHeap 0).1 0 es)
          (defineBudget demoHeap 0).2 = mapEntries demoHeap 0) :=
  defineBudget_shallow_copy demoHeap 0 (by decide)
